import Mathlib

/-!
Verification of the ftag tag-store engine (src/ftag.rs).

Shallow embedding: the SQLite table `tags(id INTEGER PRIMARY KEY, path TEXT
NOT NULL, tags TEXT)` is a list of rows plus the next auto-assigned id; the
filesystem is a predicate `String → Bool` telling which paths exist; the
serialized JSON blob stored in the `tags` column is an inductive that is
either a well-formed tag array or malformed text.  Each Rust function
becomes a Lean function of the same name taking the store state explicitly
and returning its result together with the post-state.
-/

namespace Ftag

/-- Model of `std::io::ErrorKind` (only the kinds the code constructs). -/
inductive IoErrorKind where
  | notFound
  | alreadyExists
deriving DecidableEq, Repr

/-- Model of `rusqlite::Error` (only the variant the model can produce:
`query_row` on an empty result set yields `QueryReturnedNoRows`). -/
inductive DbError where
  | queryReturnedNoRows
deriving DecidableEq, Repr

/-- Model of `FtagError` from src/ftag.rs. `JsonError` carries no payload:
the serde error value is never inspected by the code. -/
inductive FtagError where
  | ioError (kind : IoErrorKind)
  | noDatabaseError
  | databaseError (err : DbError)
  | jsonError
deriving DecidableEq, Repr

/-- Model of the TEXT stored in the `tags` column: either well-formed JSON
of shape `{"Tags": [...]}` (carrying the array), or malformed text. -/
inductive TagBlob where
  | good (tags : List String)
  | bad
deriving DecidableEq, Repr

/-- Model of `serde_json::from_str::<Taglist>`: parsing a well-formed blob
yields its tag array deserialized into a `HashSet` (duplicates collapse,
modelled by `dedup`); parsing malformed text fails. -/
def parseTaglist : TagBlob → Option (List String)
  | .good tags => some tags.dedup
  | .bad => none

/-- Model of `serde_json::to_string::<Taglist>`: serialization always
succeeds and round-trips. -/
def serializeTaglist (tags : List String) : TagBlob :=
  .good tags

/-- One row of the `tags` table. -/
structure Row where
  id : Nat
  path : String
  tags : TagBlob
deriving DecidableEq, Repr

/-- The database file: the rows of the single `tags` table in physical
order, plus the next `INTEGER PRIMARY KEY` value SQLite will auto-assign. -/
structure Db where
  rows : List Row
  nextId : Nat
deriving DecidableEq, Repr

/-- The world an ftag call runs in: which paths exist on disk
(`Utf8PathBuf::exists`), and the database file at `.ftag.db`
(`none` when no database has been initialized). -/
structure State where
  fs : String → Bool
  db : Option Db

/-- Model of `HashSet::insert` on the list representing the set:
appending the element unless it is already present. -/
def insertTag (l : List String) (t : String) : List String :=
  if t ∈ l then l else l ++ [t]

/-- Inserting each element of `ts` in order (a `for`-loop of inserts). -/
def insertAll (l : List String) (ts : List String) : List String :=
  ts.foldl insertTag l

/-- `query_db_for_path`: fails with `NoDatabaseError` when the database
file is absent, otherwise `SELECT id, tags FROM tags WHERE path = ?` via
`query_row`, which returns the first matching row or fails with
`QueryReturnedNoRows`. -/
def query_db_for_path (s : State) (path : String) : Except FtagError (Nat × TagBlob) :=
  match s.db with
  | none => .error .noDatabaseError
  | some db =>
    match db.rows.find? (fun r => decide (r.path = path)) with
    | none => .error (.databaseError .queryReturnedNoRows)
    | some r => .ok (r.id, r.tags)

/-- `update_row_into_db`: fails when the database file is absent; otherwise
queries for the path and, on a failed query, runs
`INSERT INTO tags(path, tags) VALUES (?, ?)` (a fresh row with the next
auto-assigned id), while on a successful query it runs
`UPDATE tags SET tags = ? WHERE id = ?` on the returned id. -/
def update_row_into_db (s : State) (path : String) (serialized : TagBlob) :
    Except FtagError Unit × State :=
  match s.db with
  | none => (.error .noDatabaseError, s)
  | some db =>
    match query_db_for_path s path with
    | .error _ =>
      (.ok (), { s with db := some { rows := db.rows ++ [{ id := db.nextId, path := path, tags := serialized }],
                                     nextId := db.nextId + 1 } })
    | .ok (id, _) =>
      (.ok (), { s with db := some { rows := db.rows.map (fun r => if r.id = id then { r with tags := serialized } else r),
                                     nextId := db.nextId } })

/-- `prune_db`: fails when the database file is absent; otherwise scans
every row collecting the paths that no longer exist on disk, then deletes
the rows of each collected path (`DELETE FROM tags WHERE path = ?`). -/
def prune_db (s : State) : Except FtagError Unit × State :=
  match s.db with
  | none => (.error .noDatabaseError, s)
  | some db =>
    let toRemove : List String := (db.rows.filter (fun r => !s.fs r.path)).map (fun r => r.path)
    let rows := toRemove.foldl (fun rs name => rs.filter (fun r => decide (r.path ≠ name))) db.rows
    (.ok (), { s with db := some { db with rows := rows } })

/-- `init_db`: refuses with `IoError(AlreadyExists)` when the database file
already exists, otherwise creates the database file holding the empty
`tags` table (SQLite's first auto-assigned INTEGER PRIMARY KEY is 1). -/
def init_db (s : State) : Except FtagError Unit × State :=
  match s.db with
  | some _ => (.error (.ioError .alreadyExists), s)
  | none => (.ok (), { s with db := some { rows := [], nextId := 1 } })

/-- `get_file_tags`: fails with `IoError(NotFound)` when the path does not
exist on disk; otherwise queries the database for the path and returns the
deserialized tagset of the matched row (propagating a JSON parse failure),
or the empty set when the query failed for any reason. -/
def get_file_tags (s : State) (path : String) : Except FtagError (List String) :=
  if s.fs path then
    match query_db_for_path s path with
    | .ok (_, json) =>
      match parseTaglist json with
      | some tags => .ok tags
      | none => .error .jsonError
    | .error _ => .ok []
  else
    .error (.ioError .notFound)

/-- `add_tags`: fails with `IoError(NotFound)` when the path does not exist
on disk; otherwise builds the union of the deserialized existing tagset
(empty when the query failed) with the given tags, writes it back with
`update_row_into_db`, and returns it. -/
def add_tags (s : State) (path : String) (addTags : List String) :
    Except FtagError (List String) × State :=
  if s.fs path then
    match query_db_for_path s path with
    | .ok (_, json) =>
      match parseTaglist json with
      | none => (.error .jsonError, s)
      | some existing =>
        let newtags := insertAll (insertAll [] existing) addTags
        match update_row_into_db s path (serializeTaglist newtags) with
        | (.ok _, s1) => (.ok newtags, s1)
        | (.error e, s1) => (.error e, s1)
    | .error _ =>
      let newtags := insertAll [] addTags
      match update_row_into_db s path (serializeTaglist newtags) with
      | (.ok _, s1) => (.ok newtags, s1)
      | (.error e, s1) => (.error e, s1)
  else
    (.error (.ioError .notFound), s)

/-- `remove_tags`: fails with `IoError(NotFound)` when the path does not
exist on disk; otherwise keeps only the deserialized existing tags not
listed for removal (empty when the query failed), writes the result back
with `update_row_into_db`, and returns it. -/
def remove_tags (s : State) (path : String) (removeTags : List String) :
    Except FtagError (List String) × State :=
  if s.fs path then
    match query_db_for_path s path with
    | .ok (_, json) =>
      match parseTaglist json with
      | none => (.error .jsonError, s)
      | some existing =>
        let newtags := existing.foldl
          (fun acc t => if t ∈ removeTags then acc else insertTag acc t) []
        match update_row_into_db s path (serializeTaglist newtags) with
        | (.ok _, s1) => (.ok newtags, s1)
        | (.error e, s1) => (.error e, s1)
    | .error _ =>
      let newtags : List String := []
      match update_row_into_db s path (serializeTaglist newtags) with
      | (.ok _, s1) => (.ok newtags, s1)
      | (.error e, s1) => (.error e, s1)
  else
    (.error (.ioError .notFound), s)

/-- Model of the `HashMap<String, u32>` of tag counts: the partial map from
tag to stored `u32` count, `none` for an absent key.  The `u32` values are
modelled as `Nat` with every increment taken modulo `2 ^ 32`, since the
source's `u32` addition wraps on overflow. -/
def TagCounts : Type := String → Option Nat

/-- One iteration of the counting loop body in `get_global_tags`: bump the
`u32` count stored for `tag` (insert 1 when the key is absent); the
addition wraps modulo `2 ^ 32` as the source's `u32` arithmetic does. -/
def incrCount (m : TagCounts) (tag : String) : TagCounts :=
  fun t => if t = tag then some (((m tag).getD 0 + 1) % 2 ^ 32) else m t

/-- The inner `for tag in deserialized.tags` loop of `get_global_tags`. -/
def incrAll (m : TagCounts) (tags : List String) : TagCounts :=
  tags.foldl incrCount m

/-- The `query_map` scan of `get_global_tags`: deserialize each row's blob
with `.unwrap()` — a malformed blob panics, modelled by `none` (the whole
operation aborts with no partial mapping) — and feed its tags to the
counting loop. -/
def countScan (rows : List Row) (m : TagCounts) : Option TagCounts :=
  match rows with
  | [] => some m
  | r :: rest =>
    match parseTaglist r.tags with
    | none => none
    | some tags => countScan rest (incrAll m tags)

/-- `get_global_tags`: fails with `NoDatabaseError` when the database file
is absent; otherwise prunes the database, then scans every remaining row
accumulating tag counts.  The inner `Option` is `none` when the scan
panicked on a malformed blob. -/
def get_global_tags (s : State) : Except FtagError (Option TagCounts) × State :=
  match s.db with
  | none => (.error .noDatabaseError, s)
  | some _ =>
    match prune_db s with
    | (.error e, s1) => (.error e, s1)
    | (.ok _, s1) =>
      match s1.db with
      | none => (.error .noDatabaseError, s1)
      | some db1 => (.ok (countScan db1.rows (fun _ => none)), s1)

/-- The `query_map` scan of `find_tags`: for each row in scan order,
deserialize its blob with `.unwrap()` — a malformed blob panics, modelled
by `none`, no partial list — and push the row's path when every required
tag is contained and no excluded tag is contained. -/
def findScan (findTags excludeTags : List String) (rows : List Row)
    (acc : List String) : Option (List String) :=
  match rows with
  | [] => some acc
  | r :: rest =>
    match parseTaglist r.tags with
    | none => none
    | some tags =>
      let findTagsContained := findTags.all (fun t => decide (t ∈ tags))
      let excludeTagsNotContained := excludeTags.all (fun t => decide (t ∉ tags))
      if findTagsContained && excludeTagsNotContained then
        findScan findTags excludeTags rest (acc ++ [r.path])
      else
        findScan findTags excludeTags rest acc

/-- `find_tags`: fails with `NoDatabaseError` when the database file is
absent; otherwise scans every row and returns the matching paths in scan
order (the `HashSet` conversion of the two argument vectors only changes
how containment is tested, not which elements are contained).  The inner
`Option` is `none` when the scan panicked on a malformed blob. -/
def find_tags (s : State) (findTags excludeTags : List String) :
    Except FtagError (Option (List String)) :=
  match s.db with
  | none => .error .noDatabaseError
  | some db => .ok (findScan findTags excludeTags db.rows [])

/-! ## Derived notions used to state the claims -/

/-- The tagset a row stores, as the code would deserialize it (empty for a
malformed blob; only applied to well-formed rows in the theorems). -/
def rowTags (r : Row) : List String := (parseTaglist r.tags).getD []

/-- The tagset previously stored for a path: the deserialized tagset of the
first row matching the path, or the empty set when no row matches. -/
def storedTags (db : Db) (p : String) : List String :=
  match db.rows.find? (fun r => decide (r.path = p)) with
  | some r => rowTags r
  | none => []

/-- A row for path `p` is present in the database. -/
def rowExists (s : State) (p : String) : Prop :=
  ∃ db, s.db = some db ∧ ∃ r ∈ db.rows, r.path = p

/-- The code's per-row match predicate of the find scan, phrased on a row. -/
def rowMatches (req exc : List String) (r : Row) : Bool :=
  req.all (fun t => decide (t ∈ rowTags r)) && exc.all (fun t => decide (t ∉ rowTags r))

/-- The find result set as §4.8 of the spec words it: the paths of the
rows whose tagset contains every required tag and contains no excluded
tag, in scan order. -/
def findTagsSpec (rows : List Row) (req exc : List String) : List String :=
  (rows.filter (fun r =>
    decide ((∀ t ∈ req, t ∈ rowTags r) ∧ ∀ t ∈ exc, t ∉ rowTags r))).map (fun r => r.path)

/-- The distinct on-disk-existing paths whose stored tagset contains `t`. -/
def pathsWithTag (s : State) (db : Db) (t : String) : List String :=
  ((db.rows.filter (fun r => s.fs r.path && decide (t ∈ rowTags r))).map (fun r => r.path)).dedup

/-- The public operations of the store (§4), as syntax for reachability. -/
inductive Op where
  | add (p : String) (ts : List String)
  | remove (p : String) (ts : List String)
  | getFile (p : String)
  | getGlobal
  | find (req exc : List String)

/-- The state after running one public operation (the read-only operations
leave the state unchanged). -/
def applyOp (s : State) : Op → State
  | .add p ts => (add_tags s p ts).2
  | .remove p ts => (remove_tags s p ts).2
  | .getFile _ => s
  | .getGlobal => (get_global_tags s).2
  | .find _ _ => s

/-- States reachable from a freshly initialized empty database via the
public operations; the filesystem may change between calls (files can be
created or deleted externally). -/
inductive Reachable : State → Prop where
  | init (fs : String → Bool) :
      Reachable { fs := fs, db := some { rows := [], nextId := 1 } }
  | step (s : State) (op : Op) : Reachable s → Reachable (applyOp s op)
  | fsChange (s : State) (fs2 : String → Bool) : Reachable s → Reachable { s with fs := fs2 }

/-! ## Set lemmas about the `HashSet::insert` model -/

theorem mem_insertTag {l : List String} {a t : String} :
    t ∈ insertTag l a ↔ t ∈ l ∨ t = a := by
  unfold insertTag
  by_cases h : a ∈ l <;> simp [h]
  rintro rfl
  exact h

theorem nodup_insertTag {l : List String} (h : l.Nodup) (a : String) :
    (insertTag l a).Nodup := by
  unfold insertTag
  by_cases ha : a ∈ l <;> simp [ha, h]
  exact List.Nodup.append h (List.nodup_singleton a)
    (by
      intro x hx hxa
      rw [List.mem_singleton] at hxa
      subst hxa
      exact ha hx)

theorem mem_insertAll {l ts : List String} {t : String} :
    t ∈ insertAll l ts ↔ t ∈ l ∨ t ∈ ts := by
  induction ts generalizing l with
  | nil => simp [insertAll]
  | cons a rest ih =>
    show t ∈ insertAll (insertTag l a) rest ↔ _
    rw [ih, mem_insertTag]
    simp [or_assoc]

theorem nodup_insertAll {l ts : List String} (h : l.Nodup) :
    (insertAll l ts).Nodup := by
  induction ts generalizing l with
  | nil => exact h
  | cons a rest ih => exact ih (nodup_insertTag h a)

/-! ## Claim C7: initialization -/

/-- Claim C7: `init_db` fails with `AlreadyExists` whenever a database file
is already present, leaving the state unchanged; on a fresh directory it
succeeds, creating the database with the single empty table, and a second
`init_db` then fails with `AlreadyExists`. -/
theorem init_db_spec (s : State) :
    (∀ db, s.db = some db → init_db s = (.error (.ioError .alreadyExists), s)) ∧
    (s.db = none →
      init_db s = (.ok (), { s with db := some { rows := [], nextId := 1 } }) ∧
      (init_db (init_db s).2).1 = .error (.ioError .alreadyExists)) := by
  constructor
  · intro db h
    simp [init_db, h]
  · intro h
    simp [init_db, h]

/-- Witness for C7 at a concrete fresh state. -/
theorem init_db_spec_witness :
    init_db { fs := fun _ => false, db := none } =
      (.ok (), { fs := fun _ => false, db := some { rows := [], nextId := 1 } }) ∧
    (init_db (init_db { fs := fun _ => false, db := none }).2).1 =
      .error (.ioError .alreadyExists) :=
  (init_db_spec { fs := fun _ => false, db := none }).2 rfl

/-! ## Claim C8: add on a nonexistent path -/

/-- Claim C8: for every path that does not exist on disk and every database
state, `add_tags` fails with the `NotFound` IO error kind and leaves the
whole state (in particular the database) unchanged. -/
theorem add_tags_nonexistent_path (s : State) (p : String) (ts : List String)
    (h : s.fs p = false) :
    add_tags s p ts = (.error (.ioError .notFound), s) := by
  simp [add_tags, h]

/-- Witness for C8 at a concrete state. -/
theorem add_tags_nonexistent_path_witness :
    add_tags { fs := fun _ => false, db := some { rows := [], nextId := 1 } } "a" ["t"] =
      (.error (.ioError .notFound),
        { fs := fun _ => false, db := some { rows := [], nextId := 1 } }) :=
  add_tags_nonexistent_path _ "a" ["t"] rfl

/-! ## The find scan -/

theorem findScan_cons (req exc : List String) (r : Row) (rest : List Row) (acc : List String) :
    findScan req exc (r :: rest) acc =
      match parseTaglist r.tags with
      | none => none
      | some tags =>
        if (req.all fun t => decide (t ∈ tags)) && exc.all fun t => decide (t ∉ tags) then
          findScan req exc rest (acc ++ [r.path])
        else
          findScan req exc rest acc := by
  simp only [findScan]

theorem findScan_eq_of_wf (req exc : List String) (rows : List Row) (acc : List String)
    (hwf : ∀ q ∈ rows, (parseTaglist q.tags).isSome) :
    findScan req exc rows acc =
      some (acc ++ (rows.filter (rowMatches req exc)).map (fun r => r.path)) := by
  induction rows generalizing acc with
  | nil => simp [findScan]
  | cons r rest ih =>
    obtain ⟨ts, hts⟩ := Option.isSome_iff_exists.mp (hwf r (by simp))
    have hrest : ∀ q ∈ rest, (parseTaglist q.tags).isSome :=
      fun q hq => hwf q (List.mem_cons_of_mem r hq)
    have hrt : rowTags r = ts := by simp [rowTags, hts]
    have hcond : rowMatches req exc r =
        ((req.all fun t => decide (t ∈ ts)) && exc.all fun t => decide (t ∉ ts)) := by
      unfold rowMatches
      rw [hrt]
    rw [findScan_cons, hts]
    dsimp only
    rw [← hcond]
    cases hm : rowMatches req exc r with
    | false =>
      rw [if_neg (by simp)]
      rw [ih _ hrest]
      simp [List.filter_cons, hm]
    | true =>
      rw [if_pos rfl]
      rw [ih _ hrest]
      simp [List.filter_cons, hm]

theorem rowMatches_eq_spec (req exc : List String) (r : Row) :
    rowMatches req exc r =
      decide ((∀ t ∈ req, t ∈ rowTags r) ∧ ∀ t ∈ exc, t ∉ rowTags r) := by
  rw [Bool.eq_iff_iff]
  simp [rowMatches, List.all_eq_true]

/-! ## Claim C3: find correctness -/

/-- Claim C3: when every row holds well-formed tagset JSON, `find_tags`
returns exactly the paths of the rows whose tagset contains every required
tag (an empty requirement is trivially satisfied) and contains no excluded
tag (an empty exclusion is trivially satisfied), in scan order. -/
theorem find_tags_correct (s : State) (db : Db) (req exc : List String)
    (hdb : s.db = some db)
    (hwf : ∀ q ∈ db.rows, (parseTaglist q.tags).isSome) :
    find_tags s req exc = .ok (some (findTagsSpec db.rows req exc)) := by
  unfold find_tags
  rw [hdb]
  dsimp only
  rw [findScan_eq_of_wf req exc db.rows [] hwf]
  unfold findTagsSpec
  rw [List.filter_congr (fun r _ => rowMatches_eq_spec req exc r)]
  simp

/-- Witness for C3 at a concrete three-row database: only the row tagged
`{a,b}` survives requiring `a` and excluding `c`. -/
theorem find_tags_correct_witness :
    find_tags
      { fs := fun _ => true,
        db := some { rows := [{ id := 1, path := "p1", tags := .good ["a", "b"] },
                              { id := 2, path := "p2", tags := .good ["a", "c"] },
                              { id := 3, path := "p3", tags := .good ["b"] }],
                     nextId := 4 } } ["a"] ["c"] =
      .ok (some (findTagsSpec [{ id := 1, path := "p1", tags := .good ["a", "b"] },
                               { id := 2, path := "p2", tags := .good ["a", "c"] },
                               { id := 3, path := "p3", tags := .good ["b"] }] ["a"] ["c"])) ∧
    findTagsSpec [{ id := 1, path := "p1", tags := .good ["a", "b"] },
                  { id := 2, path := "p2", tags := .good ["a", "c"] },
                  { id := 3, path := "p3", tags := .good ["b"] }] ["a"] ["c"] = ["p1"] :=
  ⟨find_tags_correct _ _ ["a"] ["c"] rfl (by decide), by decide⟩

/-! ## Claim C10: find ignores the filesystem -/

/-- Claim C10: `find_tags` never consults the filesystem and never prunes:
its result is invariant under replacing the filesystem, and a row whose
path no longer exists on disk but whose tagset contains all required tags
and no excluded tag still contributes its (stale) path to the result. -/
theorem find_tags_ignores_filesystem (s : State) (db : Db) (r : Row)
    (g : String → Bool) (req exc ts : List String)
    (hdb : s.db = some db) (hr : r ∈ db.rows)
    (hstale : s.fs r.path = false)
    (hwf : ∀ q ∈ db.rows, (parseTaglist q.tags).isSome)
    (hparse : parseTaglist r.tags = some ts)
    (hreq : ∀ t ∈ req, t ∈ ts) (hexc : ∀ t ∈ exc, t ∉ ts) :
    find_tags { s with fs := g } req exc = find_tags s req exc ∧
    ∃ l, find_tags s req exc = .ok (some l) ∧ r.path ∈ l := by
  constructor
  · rfl
  · refine ⟨(db.rows.filter (rowMatches req exc)).map (fun q => q.path), ?_, ?_⟩
    · unfold find_tags
      rw [hdb]
      dsimp only
      rw [findScan_eq_of_wf req exc db.rows [] hwf]
      simp
    · have hmatch : rowMatches req exc r = true := by
        rw [rowMatches_eq_spec]
        have hrt : rowTags r = ts := by simp [rowTags, hparse]
        rw [hrt]
        simp only [decide_eq_true_eq]
        exact ⟨hreq, hexc⟩
      exact List.mem_map_of_mem _ (List.mem_filter.mpr ⟨hr, hmatch⟩)

/-- Witness for C10: a single stale row tagged `{a}` is still returned by
`find_tags(["a"], ["b"])` although its path exists nowhere on disk. -/
theorem find_tags_ignores_filesystem_witness :
    ∃ l, find_tags
      { fs := fun _ => false,
        db := some { rows := [{ id := 1, path := "gone", tags := .good ["a"] }],
                     nextId := 2 } } ["a"] ["b"] = .ok (some l) ∧ "gone" ∈ l :=
  (find_tags_ignores_filesystem _ _ { id := 1, path := "gone", tags := .good ["a"] }
    (fun _ => true) ["a"] ["b"] ["a"] rfl (by decide) rfl (by decide) (by decide)
    (by decide) (by decide)).2

/-! ## Claim C6: per-path query -/

/-- Claim C6: for a path that exists on disk, `get_file_tags` returns `Ok`
with the stored tagset when a well-formed row matches and `Ok []` when no
row matches — also when the database file is absent, i.e. when the lookup
fails for any reason; it returns `Err` exactly when the path does not exist
on disk (`IoError NotFound`) or the matched row's blob fails to parse
(`JsonError`) — never an error merely for having no tags yet. -/
theorem get_file_tags_spec (s : State) (p : String) :
    (s.fs p = false → get_file_tags s p = .error (.ioError .notFound)) ∧
    (s.fs p = true → s.db = none → get_file_tags s p = .ok []) ∧
    (s.fs p = true → ∀ db, s.db = some db →
      (db.rows.find? (fun r => decide (r.path = p)) = none → get_file_tags s p = .ok []) ∧
      (∀ r0, db.rows.find? (fun r => decide (r.path = p)) = some r0 →
        (∀ ts, parseTaglist r0.tags = some ts → get_file_tags s p = .ok ts) ∧
        (parseTaglist r0.tags = none → get_file_tags s p = .error .jsonError))) := by
  refine ⟨fun hfs => ?_, fun hfs hdb => ?_, fun hfs db hdb => ⟨fun hq => ?_, fun r0 hq => ⟨fun ts hts => ?_, fun hts => ?_⟩⟩⟩
  · simp [get_file_tags, hfs]
  · simp [get_file_tags, query_db_for_path, hfs, hdb]
  · simp [get_file_tags, query_db_for_path, hfs, hdb, hq]
  · simp [get_file_tags, query_db_for_path, hfs, hdb, hq, hts]
  · simp [get_file_tags, query_db_for_path, hfs, hdb, hq, hts]

/-- Witness for C6: a concrete state exercising the well-formed-row case. -/
theorem get_file_tags_spec_witness :
    get_file_tags
      { fs := fun _ => true,
        db := some { rows := [{ id := 1, path := "p1", tags := .good ["a"] }],
                     nextId := 2 } } "p1" = .ok ["a"] :=
  (((get_file_tags_spec
      { fs := fun _ => true,
        db := some { rows := [{ id := 1, path := "p1", tags := .good ["a"] }],
                     nextId := 2 } } "p1").2.2 rfl _ rfl).2
    { id := 1, path := "p1", tags := .good ["a"] } (by decide)).1 ["a"] (by decide)

/-! ## Lookup helpers for the mutation proofs -/

theorem find?_map_update (rows : List Row) (p : String) (i : Nat) (blob : TagBlob) :
    (rows.map (fun r => if r.id = i then { r with tags := blob } else r)).find?
        (fun r => decide (r.path = p)) =
      Option.map (fun r => if r.id = i then { r with tags := blob } else r)
        (rows.find? (fun r => decide (r.path = p))) := by
  rw [List.find?_map]
  have hcomp : ((fun (r : Row) => decide (r.path = p)) ∘
      fun (r : Row) => if r.id = i then { r with tags := blob } else r) =
      (fun (r : Row) => decide (r.path = p)) := by
    funext r
    by_cases h : r.id = i <;> simp [Function.comp, h]
  rw [hcomp]

theorem find?_append_insert (rows : List Row) (p : String) (row : Row)
    (hq : rows.find? (fun r => decide (r.path = p)) = none) (hp : row.path = p) :
    (rows ++ [row]).find? (fun r => decide (r.path = p)) = some row := by
  rw [List.find?_append, hq]
  simp [hp]

/-! ## Claim C1: add correctness -/

/-- Claim C1: for a path that exists on disk and a database holding at most
one (well-formed) row for that path, `add_tags` stores and returns exactly
the union of the previously stored tagset (empty when no row existed) with
the new tags; duplicates collapse under set semantics; a new row is
inserted when none existed, otherwise the existing row's `tags` column is
updated by id. -/
theorem add_tags_correct (s : State) (db : Db) (p : String) (new : List String)
    (hfs : s.fs p = true)
    (hdb : s.db = some db)
    (hone : ∀ r1 ∈ db.rows, ∀ r2 ∈ db.rows, r1.path = p → r2.path = p → r1 = r2)
    (hparse : ∀ r ∈ db.rows, r.path = p → (parseTaglist r.tags).isSome) :
    ∃ ts db2,
      add_tags s p new = (.ok ts, { s with db := some db2 }) ∧
      ts.Nodup ∧
      (∀ t, t ∈ ts ↔ t ∈ storedTags db p ∨ t ∈ new) ∧
      (∀ t, t ∈ storedTags db2 p ↔ t ∈ ts) ∧
      (db.rows.find? (fun r => decide (r.path = p)) = none →
        db2.rows = db.rows ++ [{ id := db.nextId, path := p, tags := serializeTaglist ts }] ∧
        db2.nextId = db.nextId + 1) ∧
      (∀ r0, db.rows.find? (fun r => decide (r.path = p)) = some r0 →
        db2.rows = db.rows.map
          (fun r => if r.id = r0.id then { r with tags := serializeTaglist ts } else r) ∧
        db2.nextId = db.nextId) := by
  cases hq : db.rows.find? (fun r => decide (r.path = p)) with
  | none =>
    have hquery : query_db_for_path s p = .error (.databaseError .queryReturnedNoRows) := by
      simp [query_db_for_path, hdb, hq]
    have hstored : storedTags db p = [] := by simp [storedTags, hq]
    refine ⟨insertAll [] new,
      { rows := db.rows ++ [{ id := db.nextId, path := p, tags := serializeTaglist (insertAll [] new) }],
        nextId := db.nextId + 1 }, ?_, ?_, ?_, ?_, ?_, ?_⟩
    · simp [add_tags, hfs, hquery, update_row_into_db, hdb]
    · exact nodup_insertAll List.nodup_nil
    · intro t
      rw [mem_insertAll]
      simp [hstored]
    · intro t
      have hfind := find?_append_insert db.rows p
        { id := db.nextId, path := p, tags := serializeTaglist (insertAll [] new) } hq rfl
      unfold storedTags
      rw [hfind]
      simp [rowTags, serializeTaglist, parseTaglist, List.mem_dedup]
    · intro _
      exact ⟨rfl, rfl⟩
    · intro r0 h0
      exact Option.noConfusion h0
  | some r0 =>
    have hr0mem : r0 ∈ db.rows := List.mem_of_find?_eq_some hq
    have hr0path : r0.path = p := by simpa using List.find?_some hq
    obtain ⟨ex, hex⟩ := Option.isSome_iff_exists.mp (hparse r0 hr0mem hr0path)
    have hquery : query_db_for_path s p = .ok (r0.id, r0.tags) := by
      simp [query_db_for_path, hdb, hq]
    have hstored : storedTags db p = ex := by simp [storedTags, hq, rowTags, hex]
    refine ⟨insertAll (insertAll [] ex) new,
      { rows := db.rows.map (fun r => if r.id = r0.id then
          { r with tags := serializeTaglist (insertAll (insertAll [] ex) new) } else r),
        nextId := db.nextId }, ?_, ?_, ?_, ?_, ?_, ?_⟩
    · simp [add_tags, hfs, hquery, hex, update_row_into_db, hdb]
    · exact nodup_insertAll (nodup_insertAll List.nodup_nil)
    · intro t
      rw [mem_insertAll, mem_insertAll]
      simp [hstored]
    · intro t
      have hfind : (db.rows.map (fun r => if r.id = r0.id then
            { r with tags := serializeTaglist (insertAll (insertAll [] ex) new) } else r)).find?
            (fun r => decide (r.path = p)) =
          some { r0 with tags := serializeTaglist (insertAll (insertAll [] ex) new) } := by
        rw [find?_map_update, hq]
        simp
      unfold storedTags
      rw [hfind]
      simp [rowTags, serializeTaglist, parseTaglist, List.mem_dedup]
    · intro h0
      exact Option.noConfusion h0
    · intro r0' h0
      injection h0 with h0
      subst h0
      exact ⟨rfl, rfl⟩

/-- Witness for C1 at a concrete state: one row `{a}` for `"p"`, adding
`["b", "a"]`. -/
theorem add_tags_correct_witness :
    ∃ ts db2,
      add_tags
        { fs := fun _ => true,
          db := some { rows := [{ id := 1, path := "p", tags := .good ["a"] }],
                       nextId := 2 } } "p" ["b", "a"] =
        (.ok ts,
          { fs := fun _ => true, db := some db2 }) ∧
      ts.Nodup ∧ (∀ t, t ∈ ts ↔ t ∈ ["a"] ∨ t ∈ ["b", "a"]) := by
  obtain ⟨ts, db2, h1, h2, h3, -⟩ :=
    add_tags_correct
      { fs := fun _ => true,
        db := some { rows := [{ id := 1, path := "p", tags := .good ["a"] }],
                     nextId := 2 } }
      { rows := [{ id := 1, path := "p", tags := .good ["a"] }], nextId := 2 }
      "p" ["b", "a"] rfl rfl (by decide) (by decide)
  refine ⟨ts, db2, h1, h2, fun t => ?_⟩
  rw [h3 t]
  simp [storedTags, rowTags, parseTaglist]

/-! ## Claim C2: remove correctness -/

theorem mem_removeFold {existing rem : List String} (acc : List String) {t : String} :
    t ∈ existing.foldl (fun acc x => if x ∈ rem then acc else insertTag acc x) acc ↔
      t ∈ acc ∨ (t ∈ existing ∧ t ∉ rem) := by
  induction existing generalizing acc with
  | nil => simp
  | cons a rest ih =>
    show t ∈ rest.foldl _ (if a ∈ rem then acc else insertTag acc a) ↔ _
    by_cases ha : a ∈ rem
    · rw [if_pos ha, ih]
      by_cases hta : t = a
      · subst hta
        simp [ha]
      · simp [hta]
    · rw [if_neg ha, ih, mem_insertTag]
      by_cases hta : t = a
      · subst hta
        simp [ha]
      · simp [hta]

theorem nodup_removeFold {existing rem : List String} (acc : List String) (h : acc.Nodup) :
    (existing.foldl (fun acc x => if x ∈ rem then acc else insertTag acc x) acc).Nodup := by
  induction existing generalizing acc with
  | nil => exact h
  | cons a rest ih =>
    show (rest.foldl _ (if a ∈ rem then acc else insertTag acc a)).Nodup
    by_cases ha : a ∈ rem
    · rw [if_pos ha]
      exact ih _ h
    · rw [if_neg ha]
      exact ih _ (nodup_insertTag h a)

/-- Claim C2: for a path that exists on disk (and a database holding at
most one well-formed row for it), `remove_tags` stores and returns exactly
the set difference of the previously stored tagset minus the removal list;
removals of tags the path never had are silently ignored; when no row
existed an empty tagset is written as a new row and the empty set is
returned. -/
theorem remove_tags_correct (s : State) (db : Db) (p : String) (rem : List String)
    (hfs : s.fs p = true)
    (hdb : s.db = some db)
    (hone : ∀ r1 ∈ db.rows, ∀ r2 ∈ db.rows, r1.path = p → r2.path = p → r1 = r2)
    (hparse : ∀ r ∈ db.rows, r.path = p → (parseTaglist r.tags).isSome) :
    ∃ ts db2,
      remove_tags s p rem = (.ok ts, { s with db := some db2 }) ∧
      ts.Nodup ∧
      (∀ t, t ∈ ts ↔ t ∈ storedTags db p ∧ t ∉ rem) ∧
      (∀ t, t ∈ storedTags db2 p ↔ t ∈ ts) ∧
      (db.rows.find? (fun r => decide (r.path = p)) = none →
        ts = [] ∧
        db2.rows = db.rows ++ [{ id := db.nextId, path := p, tags := serializeTaglist ts }] ∧
        db2.nextId = db.nextId + 1) ∧
      (∀ r0, db.rows.find? (fun r => decide (r.path = p)) = some r0 →
        db2.rows = db.rows.map
          (fun r => if r.id = r0.id then { r with tags := serializeTaglist ts } else r) ∧
        db2.nextId = db.nextId) := by
  cases hq : db.rows.find? (fun r => decide (r.path = p)) with
  | none =>
    have hquery : query_db_for_path s p = .error (.databaseError .queryReturnedNoRows) := by
      simp [query_db_for_path, hdb, hq]
    have hstored : storedTags db p = [] := by simp [storedTags, hq]
    refine ⟨[],
      { rows := db.rows ++ [{ id := db.nextId, path := p, tags := serializeTaglist [] }],
        nextId := db.nextId + 1 }, ?_, List.nodup_nil, ?_, ?_, ?_, ?_⟩
    · simp [remove_tags, hfs, hquery, update_row_into_db, hdb]
    · intro t
      simp [hstored]
    · intro t
      have hfind := find?_append_insert db.rows p
        { id := db.nextId, path := p, tags := serializeTaglist [] } hq rfl
      unfold storedTags
      rw [hfind]
      simp [rowTags, serializeTaglist, parseTaglist]
    · intro _
      exact ⟨rfl, rfl, rfl⟩
    · intro r0 h0
      exact Option.noConfusion h0
  | some r0 =>
    have hr0mem : r0 ∈ db.rows := List.mem_of_find?_eq_some hq
    have hr0path : r0.path = p := by simpa using List.find?_some hq
    obtain ⟨ex, hex⟩ := Option.isSome_iff_exists.mp (hparse r0 hr0mem hr0path)
    have hquery : query_db_for_path s p = .ok (r0.id, r0.tags) := by
      simp [query_db_for_path, hdb, hq]
    have hstored : storedTags db p = ex := by simp [storedTags, hq, rowTags, hex]
    refine ⟨ex.foldl (fun acc t => if t ∈ rem then acc else insertTag acc t) [],
      { rows := db.rows.map (fun r => if r.id = r0.id then { r with tags := serializeTaglist (ex.foldl (fun acc t => if t ∈ rem then acc else insertTag acc t) []) } else r),
        nextId := db.nextId }, ?_, nodup_removeFold [] List.nodup_nil, ?_, ?_, ?_, ?_⟩
    · simp [remove_tags, hfs, hquery, hex, update_row_into_db, hdb]
    · intro t
      rw [mem_removeFold]
      simp [hstored]
    · intro t
      have hfind : (db.rows.map (fun r => if r.id = r0.id then { r with tags := serializeTaglist (ex.foldl (fun acc t => if t ∈ rem then acc else insertTag acc t) []) } else r)).find? (fun r => decide (r.path = p)) = some { r0 with tags := serializeTaglist (ex.foldl (fun acc t => if t ∈ rem then acc else insertTag acc t) []) } := by
        rw [find?_map_update, hq]
        simp
      unfold storedTags
      rw [hfind]
      simp [rowTags, serializeTaglist, parseTaglist, List.mem_dedup]
    · intro h0
      exact Option.noConfusion h0
    · intro r0' h0
      injection h0 with h0
      subst h0
      exact ⟨rfl, rfl⟩

/-- Witness for C2 at a concrete state: one row `{a, b}` for `"p"`,
removing `["a", "zzz"]` (the never-present `"zzz"` is silently ignored). -/
theorem remove_tags_correct_witness :
    ∃ ts db2,
      remove_tags
        { fs := fun _ => true,
          db := some { rows := [{ id := 1, path := "p", tags := .good ["a", "b"] }],
                       nextId := 2 } } "p" ["a", "zzz"] =
        (.ok ts, { fs := fun _ => true, db := some db2 }) ∧
      ts.Nodup ∧ (∀ t, t ∈ ts ↔ t ∈ ["a", "b"] ∧ t ∉ ["a", "zzz"]) := by
  obtain ⟨ts, db2, h1, h2, h3, -⟩ :=
    remove_tags_correct
      { fs := fun _ => true,
        db := some { rows := [{ id := 1, path := "p", tags := .good ["a", "b"] }],
                     nextId := 2 } }
      { rows := [{ id := 1, path := "p", tags := .good ["a", "b"] }], nextId := 2 }
      "p" ["a", "zzz"] rfl rfl (by decide) (by decide)
  refine ⟨ts, db2, h1, h2, fun t => ?_⟩
  rw [h3 t]
  simp [storedTags, rowTags, parseTaglist]

/-! ## Pruning -/

theorem deleteAll_eq_filter (rows : List Row) (names : List String) :
    names.foldl (fun rs name => rs.filter (fun r => decide (r.path ≠ name))) rows =
      rows.filter (fun r => decide (r.path ∉ names)) := by
  induction names generalizing rows with
  | nil => simp
  | cons n rest ih =>
    show rest.foldl _ (rows.filter (fun r => decide (r.path ≠ n))) = _
    rw [ih, List.filter_filter]
    apply List.filter_congr
    intro r _
    rw [Bool.eq_iff_iff]
    simp [List.mem_cons, not_or]
    tauto

/-- `prune_db` on an existing database deletes exactly the rows whose path
no longer exists on disk, keeping the surviving rows in order. -/
theorem prune_db_spec (s : State) (db : Db) (hdb : s.db = some db) :
    prune_db s = (.ok (),
      { s with db := some { db with rows := db.rows.filter (fun r => s.fs r.path) } }) := by
  unfold prune_db
  rw [hdb]
  dsimp only
  rw [deleteAll_eq_filter]
  have hmem : ∀ r ∈ db.rows,
      (decide (r.path ∉ (db.rows.filter (fun q => !s.fs q.path)).map (fun q => q.path)) : Bool) =
        s.fs r.path := by
    intro r hr
    cases hfs : s.fs r.path with
    | false =>
      have hin : r.path ∈ (db.rows.filter (fun q => !s.fs q.path)).map (fun q => q.path) :=
        List.mem_map_of_mem _ (List.mem_filter.mpr ⟨hr, by simp [hfs]⟩)
      simp [hin]
    | true =>
      have hout : r.path ∉ (db.rows.filter (fun q => !s.fs q.path)).map (fun q => q.path) := by
        intro hmem
        obtain ⟨q, hq, hqe⟩ := List.mem_map.mp hmem
        have hqf := (List.mem_filter.mp hq).2
        rw [hqe, hfs] at hqf
        simp at hqf
      simp [hout]
  rw [List.filter_congr hmem]

/-! ## The counting scan -/

theorem parseTaglist_nodup {blob : TagBlob} {ts : List String}
    (h : parseTaglist blob = some ts) : ts.Nodup := by
  cases blob with
  | good l =>
    simp only [parseTaglist, Option.some_inj] at h
    exact h ▸ List.nodup_dedup l
  | bad => simp [parseTaglist] at h

theorem incrAll_eval (tags : List String) (hnd : tags.Nodup) (m : TagCounts) (t : String) :
    incrAll m tags t = if t ∈ tags then some (((m t).getD 0 + 1) % 2 ^ 32) else m t := by
  induction tags generalizing m with
  | nil => simp [incrAll]
  | cons a rest ih =>
    have hnd2 : rest.Nodup := (List.nodup_cons.mp hnd).2
    show incrAll (incrCount m a) rest t = _
    rw [ih hnd2]
    by_cases hta : t = a
    · subst hta
      have htr : t ∉ rest := (List.nodup_cons.mp hnd).1
      simp [htr, incrCount]
    · have hmt : incrCount m a t = m t := by simp [incrCount, hta]
      by_cases htr : t ∈ rest
      · simp [htr, hta, hmt]
      · simp [htr, hta, hmt]

theorem countScan_eval (rows : List Row) (m : TagCounts)
    (hwf : ∀ r ∈ rows, (parseTaglist r.tags).isSome) :
    ∃ m2, countScan rows m = some m2 ∧
      ∀ t, m2 t =
        (if rows.countP (fun r => decide (t ∈ rowTags r)) = 0 then m t
         else some (((m t).getD 0 + rows.countP (fun r => decide (t ∈ rowTags r))) % 2 ^ 32)) := by
  induction rows generalizing m with
  | nil => exact ⟨m, rfl, by simp⟩
  | cons r rest ih =>
    obtain ⟨ts, hts⟩ := Option.isSome_iff_exists.mp (hwf r (by simp))
    have hrest : ∀ q ∈ rest, (parseTaglist q.tags).isSome :=
      fun q hq => hwf q (List.mem_cons_of_mem r hq)
    have hrt : rowTags r = ts := by simp [rowTags, hts]
    obtain ⟨m2, hm2, hm2t⟩ := ih (incrAll m ts) hrest
    have hscan : countScan (r :: rest) m = some m2 := by
      show (match parseTaglist r.tags with
            | none => none
            | some tags => countScan rest (incrAll m tags)) = some m2
      rw [hts]
      exact hm2
    refine ⟨m2, hscan, ?_⟩
    intro t
    rw [hm2t t]
    rw [incrAll_eval ts (parseTaglist_nodup hts) m t]
    rw [List.countP_cons]
    by_cases hin : t ∈ ts
    · have hd : decide (t ∈ rowTags r) = true := by
        rw [hrt]
        exact decide_eq_true hin
      rw [hd, if_pos hin, if_pos rfl]
      by_cases hc : rest.countP (fun q => decide (t ∈ rowTags q)) = 0
      · rw [if_pos hc, hc]
        simp
      · rw [if_neg hc, if_neg (by omega)]
        rw [Option.getD_some]
        congr 1
        rw [Nat.mod_add_mod]
        congr 1
        omega
    · have hd : decide (t ∈ rowTags r) = false := by
        rw [hrt]
        exact decide_eq_false hin
      rw [hd, if_neg hin]
      simp

/-! ## Claim C4: global tag counts -/

/-- Claim C4: with at most one (well-formed) row per path, and fewer rows
than `2 ^ 32` (so that the `u32` counters cannot wrap), `get_global_tags`
first prunes every row whose path no longer exists on disk and then
returns a mapping sending each tag `t` to the number of distinct
on-disk-existing paths whose stored tagset contains `t`; a tag carried
only by deleted paths does not appear in the mapping. -/
theorem get_global_tags_correct (s : State) (db : Db)
    (hdb : s.db = some db)
    (hpaths : (db.rows.map (fun r => r.path)).Nodup)
    (hwf : ∀ r ∈ db.rows, (parseTaglist r.tags).isSome)
    (hbound : db.rows.length < 2 ^ 32) :
    ∃ m : TagCounts,
      get_global_tags s = (.ok (some m),
        { s with db := some { db with rows := db.rows.filter (fun r => s.fs r.path) } }) ∧
      ∀ t, m t = (if pathsWithTag s db t = [] then none
                  else some (pathsWithTag s db t).length) := by
  have hprune := prune_db_spec s db hdb
  have hwf2 : ∀ r ∈ db.rows.filter (fun r => s.fs r.path), (parseTaglist r.tags).isSome :=
    fun r hr => hwf r (List.mem_of_mem_filter hr)
  obtain ⟨m, hm, hmt⟩ := countScan_eval (db.rows.filter (fun r => s.fs r.path)) (fun _ => none) hwf2
  refine ⟨m, ?_, ?_⟩
  · unfold get_global_tags
    rw [hdb]
    dsimp only
    rw [hprune]
    dsimp only
    rw [hm]
  · intro t
    rw [hmt t]
    have hcnt : (db.rows.filter (fun r => s.fs r.path)).countP (fun r => decide (t ∈ rowTags r)) =
        (db.rows.filter (fun r => s.fs r.path && decide (t ∈ rowTags r))).length := by
      rw [List.countP_eq_length_filter, List.filter_filter]
      congr 1
      apply List.filter_congr
      intro r _
      exact Bool.and_comm _ _
    have hnd : ((db.rows.filter (fun r => s.fs r.path && decide (t ∈ rowTags r))).map (fun r => r.path)).Nodup :=
      hpaths.sublist (List.Sublist.map (fun r => r.path) (List.filter_sublist db.rows))
    have hded : pathsWithTag s db t =
        (db.rows.filter (fun r => s.fs r.path && decide (t ∈ rowTags r))).map (fun r => r.path) := by
      unfold pathsWithTag
      exact List.dedup_eq_self.mpr hnd
    rw [hcnt, hded, List.length_map]
    have hlen : ((db.rows.filter (fun r => s.fs r.path && decide (t ∈ rowTags r))).map (fun r => r.path)) = [] ↔
        (db.rows.filter (fun r => s.fs r.path && decide (t ∈ rowTags r))).length = 0 := by
      rw [List.map_eq_nil_iff, List.length_eq_zero]
    by_cases hc : (db.rows.filter (fun r => s.fs r.path && decide (t ∈ rowTags r))).length = 0
    · rw [if_pos hc, if_pos (hlen.mpr hc)]
    · rw [if_neg hc, if_neg (fun h => hc (hlen.mp h))]
      have hle : (db.rows.filter (fun r => s.fs r.path && decide (t ∈ rowTags r))).length ≤
          db.rows.length := List.length_filter_le _ _
      simp
      omega

/-- Witness for C4: tag `t` on exactly the two live paths, tag `v` only on
a path deleted from disk: the returned mapping sends `t` to 2 and does not
contain `v`. -/
theorem get_global_tags_correct_witness :
    ∃ m : TagCounts,
      (get_global_tags
        { fs := fun p => !(p == "dead"),
          db := some { rows := [{ id := 1, path := "p1", tags := .good ["t"] },
                                { id := 2, path := "p2", tags := .good ["t", "u"] },
                                { id := 3, path := "dead", tags := .good ["v"] }],
                       nextId := 4 } }).1 = .ok (some m) ∧
      m "t" = some 2 ∧ m "v" = none := by
  obtain ⟨m, h1, h2⟩ :=
    get_global_tags_correct
      { fs := fun p => !(p == "dead"),
        db := some { rows := [{ id := 1, path := "p1", tags := .good ["t"] },
                              { id := 2, path := "p2", tags := .good ["t", "u"] },
                              { id := 3, path := "dead", tags := .good ["v"] }],
                     nextId := 4 } }
      { rows := [{ id := 1, path := "p1", tags := .good ["t"] },
                 { id := 2, path := "p2", tags := .good ["t", "u"] },
                 { id := 3, path := "dead", tags := .good ["v"] }], nextId := 4 }
      rfl (by decide) (by decide) (by decide)
  refine ⟨m, by rw [h1], ?_, ?_⟩
  · rw [h2 "t"]
    decide
  · rw [h2 "v"]
    decide

/-! ## Claim C9: malformed rows and the bulk scans -/

theorem findScan_eq_none_iff (req exc : List String) (rows : List Row) (acc : List String) :
    findScan req exc rows acc = none ↔ ∃ r ∈ rows, parseTaglist r.tags = none := by
  induction rows generalizing acc with
  | nil => simp [findScan]
  | cons r rest ih =>
    rw [findScan_cons]
    cases hts : parseTaglist r.tags with
    | none =>
      constructor
      · intro _
        exact ⟨r, by simp, hts⟩
      · intro _
        rfl
    | some ts =>
      dsimp only
      have hmain : (∃ q ∈ rest, parseTaglist q.tags = none) ↔
          (∃ q ∈ r :: rest, parseTaglist q.tags = none) := by
        constructor
        · rintro ⟨q, hq, hqn⟩
          exact ⟨q, List.mem_cons_of_mem r hq, hqn⟩
        · rintro ⟨q, hq, hqn⟩
          rcases List.mem_cons.mp hq with rfl | hq2
          · rw [hts] at hqn
            cases hqn
          · exact ⟨q, hq2, hqn⟩
      split
      · rw [ih]
        exact hmain
      · rw [ih]
        exact hmain

theorem countScan_eq_none_iff (rows : List Row) (m : TagCounts) :
    countScan rows m = none ↔ ∃ r ∈ rows, parseTaglist r.tags = none := by
  induction rows generalizing m with
  | nil => simp [countScan]
  | cons r rest ih =>
    show (match parseTaglist r.tags with
          | none => none
          | some tags => countScan rest (incrAll m tags)) = none ↔ _
    cases hts : parseTaglist r.tags with
    | none =>
      constructor
      · intro _
        exact ⟨r, by simp, hts⟩
      · intro _
        rfl
    | some ts =>
      dsimp only
      rw [ih]
      constructor
      · rintro ⟨q, hq, hqn⟩
        exact ⟨q, List.mem_cons_of_mem r hq, hqn⟩
      · rintro ⟨q, hq, hqn⟩
        rcases List.mem_cons.mp hq with rfl | hq2
        · rw [hts] at hqn
          cases hqn
        · exact ⟨q, hq2, hqn⟩

/-- Counterexample to C9 as stated: in a database whose single row is
malformed but stale (its path no longer exists on disk), `get_global_tags`
is NOT fatal — the pre-scan prune removes the row and the call returns a
complete (empty) mapping. -/
theorem bulk_scan_fatal_counterexample :
    parseTaglist ({ id := 1, path := "gone", tags := TagBlob.bad } : Row).tags = none ∧
    (get_global_tags
      { fs := fun _ => false,
        db := some { rows := [{ id := 1, path := "gone", tags := TagBlob.bad }],
                     nextId := 2 } }).1 =
      .ok (some (fun _ => none)) :=
  ⟨rfl, rfl⟩

/-- Claim C9 amended: a malformed stored blob is fatal to a bulk scan
exactly when the scan reaches it, and no partial result is ever produced:
`find_tags` panics (returns no list at all) iff some row of the database is
malformed, while `get_global_tags` — which prunes before scanning — panics
(returns no mapping at all) iff some malformed row's path still exists on
disk; a malformed row that the prune deletes is never scanned. -/
theorem bulk_scan_fatal (s : State) (db : Db) (req exc : List String)
    (hdb : s.db = some db) :
    (find_tags s req exc = .ok none ↔ ∃ r ∈ db.rows, parseTaglist r.tags = none) ∧
    ((get_global_tags s).1 = .ok none ↔
      ∃ r ∈ db.rows, s.fs r.path = true ∧ parseTaglist r.tags = none) := by
  constructor
  · unfold find_tags
    rw [hdb]
    dsimp only
    rw [Except.ok.injEq]
    exact findScan_eq_none_iff req exc db.rows []
  · unfold get_global_tags
    rw [hdb]
    dsimp only
    rw [prune_db_spec s db hdb]
    dsimp only
    rw [Except.ok.injEq]
    rw [countScan_eq_none_iff]
    constructor
    · rintro ⟨r, hr, hn⟩
      have hm := List.mem_filter.mp hr
      exact ⟨r, hm.1, hm.2, hn⟩
    · rintro ⟨r, hr, hfs, hn⟩
      exact ⟨r, List.mem_filter.mpr ⟨hr, hfs⟩, hn⟩

/-- Witness for C9 (amended): both scans panic on a live malformed row. -/
theorem bulk_scan_fatal_witness :
    find_tags
      { fs := fun _ => true,
        db := some { rows := [{ id := 1, path := "x", tags := TagBlob.bad }], nextId := 2 } }
      [] [] = .ok none ∧
    (get_global_tags
      { fs := fun _ => true,
        db := some { rows := [{ id := 1, path := "x", tags := TagBlob.bad }], nextId := 2 } }).1 =
      .ok none := by
  have h := bulk_scan_fatal
    { fs := fun _ => true,
      db := some { rows := [{ id := 1, path := "x", tags := TagBlob.bad }], nextId := 2 } }
    { rows := [{ id := 1, path := "x", tags := TagBlob.bad }], nextId := 2 } [] [] rfl
  exact ⟨h.1.mpr ⟨{ id := 1, path := "x", tags := TagBlob.bad }, by simp, rfl⟩,
         h.2.mpr ⟨{ id := 1, path := "x", tags := TagBlob.bad }, by simp, rfl, rfl⟩⟩

/-! ## Claim C5: row-existence invariant -/

theorem update_row_into_db_post (s : State) (q : String) (blob : TagBlob) (p : String)
    (h : rowExists (update_row_into_db s q blob).2 p) :
    rowExists s p ∨ p = q := by
  unfold update_row_into_db at h
  cases hdb : s.db with
  | none =>
    rw [hdb] at h
    exact Or.inl h
  | some db =>
    rw [hdb] at h
    dsimp only at h
    cases hq : query_db_for_path s q with
    | error e =>
      rw [hq] at h
      dsimp only at h
      obtain ⟨db2, hdb2, r, hr, hrp⟩ := h
      injection hdb2 with hdb2
      subst hdb2
      rcases List.mem_append.mp hr with hr1 | hr2
      · exact Or.inl ⟨db, hdb, r, hr1, hrp⟩
      · right
        rw [List.mem_singleton] at hr2
        subst hr2
        exact hrp.symm
    | ok pr =>
      rcases pr with ⟨i, blob2⟩
      rw [hq] at h
      dsimp only at h
      obtain ⟨db2, hdb2, r, hr, hrp⟩ := h
      injection hdb2 with hdb2
      subst hdb2
      obtain ⟨r0, hr0, hfr⟩ := List.mem_map.mp hr
      left
      refine ⟨db, hdb, r0, hr0, ?_⟩
      rw [← hrp, ← hfr]
      by_cases hid : r0.id = i <;> simp [hid]

theorem add_tags_post (s : State) (q : String) (ts : List String) (p : String)
    (h : rowExists (add_tags s q ts).2 p) :
    rowExists s p ∨ p = q := by
  unfold add_tags at h
  by_cases hfs : s.fs q
  · rw [if_pos hfs] at h
    cases hq : query_db_for_path s q with
    | error e =>
      rw [hq] at h
      dsimp only at h
      cases hu : update_row_into_db s q
          (serializeTaglist (insertAll [] ts)) with
      | mk res s1 =>
        rw [hu] at h
        have hs1 : (update_row_into_db s q (serializeTaglist (insertAll [] ts))).2 = s1 :=
          congrArg Prod.snd hu
        cases res with
        | ok u => exact update_row_into_db_post s q _ p (hs1 ▸ h)
        | error e2 => exact update_row_into_db_post s q _ p (hs1 ▸ h)
    | ok pr =>
      rcases pr with ⟨i, blob⟩
      rw [hq] at h
      dsimp only at h
      cases hts : parseTaglist blob with
      | none =>
        rw [hts] at h
        exact Or.inl h
      | some ex =>
        rw [hts] at h
        dsimp only at h
        cases hu : update_row_into_db s q
            (serializeTaglist (insertAll (insertAll [] ex) ts)) with
        | mk res s1 =>
          rw [hu] at h
          have hs1 : (update_row_into_db s q
              (serializeTaglist (insertAll (insertAll [] ex) ts))).2 = s1 :=
            congrArg Prod.snd hu
          cases res with
          | ok u => exact update_row_into_db_post s q _ p (hs1 ▸ h)
          | error e2 => exact update_row_into_db_post s q _ p (hs1 ▸ h)
  · rw [if_neg hfs] at h
    exact Or.inl h

theorem remove_tags_post (s : State) (q : String) (ts : List String) (p : String)
    (h : rowExists (remove_tags s q ts).2 p) :
    rowExists s p ∨ p = q := by
  unfold remove_tags at h
  by_cases hfs : s.fs q
  · rw [if_pos hfs] at h
    cases hq : query_db_for_path s q with
    | error e =>
      rw [hq] at h
      dsimp only at h
      cases hu : update_row_into_db s q (serializeTaglist []) with
      | mk res s1 =>
        rw [hu] at h
        have hs1 : (update_row_into_db s q (serializeTaglist [])).2 = s1 :=
          congrArg Prod.snd hu
        cases res with
        | ok u => exact update_row_into_db_post s q _ p (hs1 ▸ h)
        | error e2 => exact update_row_into_db_post s q _ p (hs1 ▸ h)
    | ok pr =>
      rcases pr with ⟨i, blob⟩
      rw [hq] at h
      dsimp only at h
      cases hts : parseTaglist blob with
      | none =>
        rw [hts] at h
        exact Or.inl h
      | some ex =>
        rw [hts] at h
        dsimp only at h
        cases hu : update_row_into_db s q
            (serializeTaglist (ex.foldl (fun acc t => if t ∈ ts then acc else insertTag acc t) [])) with
        | mk res s1 =>
          rw [hu] at h
          have hs1 : (update_row_into_db s q
              (serializeTaglist (ex.foldl (fun acc t => if t ∈ ts then acc else insertTag acc t) []))).2 = s1 :=
            congrArg Prod.snd hu
          cases res with
          | ok u => exact update_row_into_db_post s q _ p (hs1 ▸ h)
          | error e2 => exact update_row_into_db_post s q _ p (hs1 ▸ h)
  · rw [if_neg hfs] at h
    exact Or.inl h

theorem get_global_tags_post (s : State) :
    (get_global_tags s).2 = s ∨
    ∃ db, s.db = some db ∧ (get_global_tags s).2 =
      { s with db := some { db with rows := db.rows.filter (fun r => s.fs r.path) } } := by
  cases hdb : s.db with
  | none =>
    left
    simp [get_global_tags, hdb]
  | some db =>
    right
    refine ⟨db, rfl, ?_⟩
    unfold get_global_tags
    rw [hdb]
    dsimp only
    rw [prune_db_spec s db hdb]

/-- Counterexample to C5 as stated: starting from an initialized empty
database with only `"a"` on disk, `remove_tags "a" []` (a public
operation) creates a row for `"a"` holding an EMPTY tagset, so in this
reachable state a row exists for a path that has no tag assigned. -/
theorem row_iff_tagged_counterexample :
    Reachable (applyOp { fs := fun p => p == "a", db := some { rows := [], nextId := 1 } }
      (Op.remove "a" [])) ∧
    (applyOp { fs := fun p => p == "a", db := some { rows := [], nextId := 1 } }
      (Op.remove "a" [])).db =
      some { rows := [{ id := 1, path := "a", tags := TagBlob.good [] }], nextId := 2 } ∧
    rowExists (applyOp { fs := fun p => p == "a", db := some { rows := [], nextId := 1 } }
      (Op.remove "a" [])) "a" ∧
    get_file_tags (applyOp { fs := fun p => p == "a", db := some { rows := [], nextId := 1 } }
      (Op.remove "a" [])) "a" = .ok [] :=
  ⟨Reachable.step _ (Op.remove "a" []) (Reachable.init _),
   by decide,
   ⟨{ rows := [{ id := 1, path := "a", tags := TagBlob.good [] }], nextId := 2 }, by decide,
    { id := 1, path := "a", tags := TagBlob.good [] }, by decide, rfl⟩,
   rfl⟩

/-- Claim C5 amended: rows are created only by `add_tags` or `remove_tags`
on the row's own path — the read-only operations and the pruning inside
`get_global_tags` never create a row; since `remove_tags` on a rowless
path also creates a row (with an empty tagset), a row's existence
witnesses a past add or remove for that path, not a nonempty tagset. -/
theorem rows_created_only_by_add_remove (s : State) (op : Op) (p : String)
    (h : rowExists (applyOp s op) p) :
    rowExists s p ∨ (∃ ts, op = Op.add p ts) ∨ (∃ ts, op = Op.remove p ts) := by
  cases op with
  | getFile q => exact Or.inl h
  | find req exc => exact Or.inl h
  | getGlobal =>
    left
    rcases get_global_tags_post s with hpost | ⟨db, hdb, hpost⟩
    · rw [show applyOp s Op.getGlobal = (get_global_tags s).2 from rfl, hpost] at h
      exact h
    · rw [show applyOp s Op.getGlobal = (get_global_tags s).2 from rfl, hpost] at h
      obtain ⟨db2, hdb2, r, hr, hrp⟩ := h
      injection hdb2 with hdb2
      subst hdb2
      exact ⟨db, hdb, r, List.mem_of_mem_filter hr, hrp⟩
  | add q ts =>
    rcases add_tags_post s q ts p h with h1 | h1
    · exact Or.inl h1
    · subst h1
      exact Or.inr (Or.inl ⟨ts, rfl⟩)
  | remove q ts =>
    rcases remove_tags_post s q ts p h with h1 | h1
    · exact Or.inl h1
    · subst h1
      exact Or.inr (Or.inr ⟨ts, rfl⟩)

/-- Witness for C5 (amended) at a concrete step: the row for `"a"` present
after `add_tags "a" ["x"]` is accounted for by the add itself. -/
theorem rows_created_only_by_add_remove_witness :
    rowExists (applyOp { fs := fun _ => true, db := some { rows := [], nextId := 1 } }
      (Op.add "a" ["x"])) "a" ∧
    (rowExists { fs := fun _ => true, db := some { rows := [], nextId := 1 } } "a" ∨
      (∃ ts, Op.add "a" ["x"] = Op.add "a" ts) ∨
      (∃ ts, Op.add "a" ["x"] = Op.remove "a" ts)) :=
  have hrow : rowExists (applyOp { fs := fun _ => true, db := some { rows := [], nextId := 1 } }
      (Op.add "a" ["x"])) "a" :=
    ⟨{ rows := [{ id := 1, path := "a", tags := TagBlob.good ["x"] }], nextId := 2 }, by decide,
     { id := 1, path := "a", tags := TagBlob.good ["x"] }, by decide, rfl⟩
  ⟨hrow, rows_created_only_by_add_remove _ (Op.add "a" ["x"]) "a" hrow⟩

end Ftag
